import Mathlib

/-!
# Verification of the Pdist operator (host tiling planner and device kernel)

Shallow embedding of the Pdist repository:

* `op_host/pdist.cpp` — `TilingFunc`: alignment of the row length to the
  32-byte transfer granularity, selection of the number of active compute
  units, and assembly of the tiling descriptor.
* `op_kernel/pdist.cpp` — `KernelPdist`: cyclic assignment of rows to
  compute units, per-pair staging of rows (`CopyRow`), the three
  distance branches of `ComputeAndSave`, and the condensed-triangular
  output index.
* `TestPdist/main.cpp` — `cpu_pdist`: the host-side reference oracle,
  including its Chebyshev fallback for `p = +inf`.

Machine floats are modelled as real numbers; machine integers as `ℕ`
(the quantities involved are far below any overflow boundary in the
scenarios treated here).
-/

namespace PdistSpec

/-! ## Host tiling planner (`op_host/pdist.cpp`, `TilingFunc`) -/

/-- `typeSize` as selected by `TilingFunc` from the input dtype:
4 bytes for 32-bit float, otherwise 2 bytes (FP16). -/
def typeSize (isFloat32 : Bool) : ℕ :=
  if isFloat32 then 4 else 2

/-- `alignedRowSize = (rowSize + align - 1) / align * align` with
`align = 32` and `rowSize = m * typeSize` (host lines 46–48). -/
def alignedRowSize (m ts : ℕ) : ℕ :=
  (m * ts + 32 - 1) / 32 * 32

/-- `tileLength = alignedRowSize / typeSize` (host line 49): the aligned
row length in elements. -/
def tileLength (m ts : ℕ) : ℕ :=
  alignedRowSize m ts / ts

/-- `usedCoreNum`: all available AI cores, collapsed to 1 when
`n < aicoreNum` (host lines 52–58). -/
def usedCoreNum (n aicoreNum : ℕ) : ℕ :=
  if n < aicoreNum then 1 else aicoreNum

/-- The tiling descriptor `PdistTilingData` (`op_host/pdist_tiling.h`). -/
structure PdistTilingData where
  n : ℕ
  m : ℕ
  p : ℝ
  tileLength : ℕ
  usedCoreNum : ℕ
  tilingKey : ℕ

/-- `TilingFunc` (host lines 13–88): reads the optional attribute `p`
(defaulting to `2.0`), the shape `n × m`, the dtype, and the core count,
and fills the descriptor.  The platform-failure path (null platform
info) is outside the data model. -/
def TilingFunc (n m : ℕ) (pAttr : Option ℝ) (isFloat32 : Bool)
    (aicoreNum : ℕ) : PdistTilingData :=
  { n := n
    m := m
    p := pAttr.getD 2
    tileLength := tileLength m (typeSize isFloat32)
    usedCoreNum := usedCoreNum n aicoreNum
    tilingKey := 1 }

/-! ## Device kernel (`op_kernel/pdist.cpp`, `KernelPdist`) -/

/-- `CopyRow` (kernel lines 126–128): `DataCopy(ub, xGm[rowIdx * m], tileLength)`
stages the `tl` consecutive elements of global memory starting at flat
index `rowIdx * m`.  Global memory is a total map `ℕ → ℝ`; the input
matrix occupies flat indices `[0, n*m)`. -/
def CopyRow (x : ℕ → ℝ) (m tl rowIdx : ℕ) : List ℝ :=
  (List.range tl).map fun k => x (rowIdx * m + k)

/-- `Sub` then `Abs` (kernel lines 81–82): element-wise `|rowI - rowJ|`
over the staged buffers. -/
def absDiff (a b : List ℝ) : List ℝ :=
  List.zipWith (fun u v => |u - v|) a b

/-- The vector core of `ComputeAndSave` (kernel lines 78–111): the staged
rows are subtracted and passed through one of the three branches on `p`
(lines 85–106), and the reduced scalar is read out with `GetValue(0)`.

* `p == 1`: `ReduceSum` of `|d|`;
* `p == 2`: `Mul`, `ReduceSum`, `Sqrt`;
* otherwise: `Adds 1e-20`, `Ln`, `Muls p`, `Exp`, `ReduceSum`
  (no final `1/p` root).

All reductions run over the full staged length. -/
noncomputable def computePair (p : ℝ) (a b : List ℝ) : ℝ :=
  if p = 1 then (absDiff a b).sum
  else if p = 2 then Real.sqrt (((absDiff a b).map fun t => t * t).sum)
  else ((absDiff a b).map fun t => Real.exp (p * Real.log (t + 1e-20))).sum

/-- The output index of `ComputeAndSave` (kernel line 114):
`outIdx = (2 * n - 1 - i) * i / 2 + (j - i - 1)`. -/
def outIdx (n i j : ℕ) : ℕ :=
  (2 * n - 1 - i) * i / 2 + (j - i - 1)

/-- The rows walked by the outer loop of `Process` (kernel line 54):
`for (i = coreId; i < n; i += totalCoreNum)`.  For `u < A` these are
exactly the `i < n` with `i % A = u`. -/
def coreRows (n A u : ℕ) : List ℕ :=
  (List.range n).filter fun i => i % A = u

/-- The columns walked by the inner loop of `ComputeAndSave` dispatch
(kernel line 60): `for (j = i + 1; j < n; ++j)`. -/
def innerJs (n i : ℕ) : List ℕ :=
  (List.range n).filter fun j => i < j

/-- The ordered list of pairs `(i, j)` processed by compute unit `u`
(`Process`, kernel lines 50–66), including the defensive guard
`if (coreId >= totalCoreNum) return;` (line 51). -/
def processPairs (n A u : ℕ) : List (ℕ × ℕ) :=
  if u < A then
    (coreRows n A u).flatMap fun i => (innerJs n i).map fun j => (i, j)
  else []

/-- The write of one pair's result (kernel lines 111–117):
`yRaw[outIdx] = result` updates output memory at the condensed index. -/
noncomputable def writePair (x : ℕ → ℝ) (n m tl : ℕ) (p : ℝ)
    (y : ℕ → ℝ) (pr : ℕ × ℕ) : ℕ → ℝ :=
  fun k =>
    if k = outIdx n pr.1 pr.2 then
      computePair p (CopyRow x m tl pr.1) (CopyRow x m tl pr.2)
    else y k

/-- One compute unit's full run (`Process`): its pairs are processed in
loop order, each writing its scalar result. -/
noncomputable def coreRun (x : ℕ → ℝ) (n m tl : ℕ) (p : ℝ) (A u : ℕ)
    (y : ℕ → ℝ) : ℕ → ℝ :=
  (processPairs n A u).foldl (writePair x n m tl p) y

/-- The whole engine: the `A` launched units each run `Process`.  The
writes are disjoint (claim C1), so the sequential fold over units is a
faithful model of the concurrent execution. -/
noncomputable def engineRun (x : ℕ → ℝ) (n m tl : ℕ) (p : ℝ) (A : ℕ)
    (y : ℕ → ℝ) : ℕ → ℝ :=
  (List.range A).foldl (fun acc u => coreRun x n m tl p A u acc) y

/-! ## Host-side reference oracle (`TestPdist/main.cpp`, `cpu_pdist`) -/

/-- One pair's distance as computed by the reference `cpu_pdist`
(test lines 31–63).  `p` is an extended real so that the
`std::isinf(p)` test and the Chebyshev fallback are expressible:
for `p = +inf` the result is the running maximum of `|d|` (seeded at 0,
lines 41–49); otherwise it is `(Σ |d|^p)^(1/p)` (lines 51–57). -/
noncomputable def cpuPairDist (p : EReal) (x : ℕ → ℝ) (m i j : ℕ) : ℝ :=
  if p = ⊤ then
    ((List.range m).map fun k => |x (i * m + k) - x (j * m + k)|).foldl max 0
  else
    (((List.range m).map fun k =>
        |x (i * m + k) - x (j * m + k)| ^ p.toReal).sum) ^ (1 / p.toReal)

/-- The three control paths of the kernel's branch on `p`
(kernel lines 85–106).  This inductive has exactly these constructors:
the kernel has no further path (in particular no maximum-based one). -/
inductive PBranch where
  | oneB : PBranch
  | twoB : PBranch
  | genericB : PBranch
deriving DecidableEq

/-- Which path the kernel's `if (p == 1.0f) … else if (p == 2.0f) … else`
chain selects.  `p` is an extended real so that the IEEE comparison
behaviour at `p = +inf` (unequal to every finite value) is captured. -/
noncomputable def branchOf (p : EReal) : PBranch :=
  if p = ((1 : ℝ) : EReal) then .oneB
  else if p = ((2 : ℝ) : EReal) then .twoB
  else .genericB

/-! ## Auxiliary definitions used by the theorems -/

/-- The number of pairs whose first row is below `i`:
`∑ r < i, (n - 1 - r)`.  Proof-side characterisation of the first
summand of `outIdx`. -/
def rowBaseS (n i : ℕ) : ℕ :=
  ∑ r ∈ Finset.range i, (n - 1 - r)

/-- The flattened end-to-end input matrix of the spec's scenario:
`n = 4`, `m = 2`, rows `[0,0], [3,4], [0,0], [6,8]` (zero beyond the
matrix). -/
def xE : ℕ → ℝ := fun k =>
  if k = 2 then 3 else if k = 3 then 4 else
  if k = 6 then 6 else if k = 7 then 8 else 0

/-- A concrete `n = 9`, `m = 1` input column `[0,0,1,1,1,1,1,1,1]`
(zero beyond the matrix), used to exhibit padding pollution. -/
def xPad : ℕ → ℝ := fun k => if k < 2 then 0 else 1

/-- An all-zero global memory. -/
def xZeros : ℕ → ℝ := fun _ => 0

/-- A global memory that is zero on the first 10 flat indices (a 2×5
matrix of zeros) and 1 beyond them. -/
def xBeyond : ℕ → ℝ := fun k => if k < 10 then 0 else 1

/-- The element width the kernel actually uses: `Init` casts both the
input and the output pointer to `float*` (kernel lines 37–39) and all
`LocalTensor`s are `float`, so every access is 4 bytes wide regardless
of the declared dtype. -/
def kernelElemBytes : ℕ := 4

/-- The byte offset at which the kernel starts fetching row `rowIdx`:
`xGm[rowIdx * m]` indexes in kernel elements (kernel line 127). -/
def kernelRowStartByte (m rowIdx : ℕ) : ℕ :=
  rowIdx * m * kernelElemBytes

/-- The byte count the kernel stages per row: `tileLength` kernel
elements (kernel line 127). -/
def kernelRowReadBytes (tl : ℕ) : ℕ :=
  tl * kernelElemBytes

/-- The byte offset at which row `rowIdx` of a row-major matrix with
element width `ts` actually begins. -/
def rowStartByte (ts m rowIdx : ℕ) : ℕ :=
  rowIdx * m * ts

/-! ## Theorems for claims C6 and C7 -/

/-- **C6.** For every `m ≥ 1` and element width in `{4, 2}`, the planner's
`tileLength` satisfies `tileLength ≥ m` and is a multiple of the 32-byte
granularity in elements (`32 / ts`, i.e. 8 for 32-bit and 16 for 16-bit
elements); and concretely `m = 5` gives 8 (width 4) and 16 (width 2),
while `m = 8` with width 4 gives 8. -/
theorem tileLength_aligned (m ts : ℕ) (hm : 1 ≤ m) (hts : ts = 4 ∨ ts = 2) :
    m ≤ tileLength m ts ∧ tileLength m ts % (32 / ts) = 0 ∧
      (TilingFunc m m none true 1).tileLength = tileLength m 4 ∧
      tileLength 5 4 = 8 ∧ tileLength 5 2 = 16 ∧ tileLength 8 4 = 8 := by
  refine ⟨?_, ?_, rfl, by decide, by decide, by decide⟩
  · rcases hts with h | h <;> subst h <;>
      simp only [tileLength, alignedRowSize] <;> omega
  · rcases hts with h | h <;> subst h <;>
      simp only [tileLength, alignedRowSize] <;> omega

/-- Witness for `tileLength_aligned` at `m = 5`, `ts = 4`. -/
theorem tileLength_aligned_witness :
    5 ≤ tileLength 5 4 ∧ tileLength 5 4 % (32 / 4) = 0 ∧
      (TilingFunc 5 5 none true 1).tileLength = tileLength 5 4 ∧
      tileLength 5 4 = 8 ∧ tileLength 5 2 = 16 ∧ tileLength 8 4 = 8 :=
  tileLength_aligned 5 4 (by decide) (Or.inl rfl)

/-! ## Claim C1: the cyclic assignment covers each pair exactly once -/

/-- Membership in a unit's pair list, unfolded. -/
theorem mem_processPairs {n A u i j : ℕ} :
    (i, j) ∈ processPairs n A u ↔
      u < A ∧ i % A = u ∧ i < n ∧ i < j ∧ j < n := by
  unfold processPairs coreRows innerJs
  split
  · simp only [List.mem_flatMap, List.mem_map, List.mem_filter, List.mem_range,
      Prod.mk.injEq, decide_eq_true_eq]
    constructor
    · rintro ⟨a, ⟨ha, hau⟩, b, ⟨hb, hab⟩, rfl, rfl⟩
      exact ⟨‹u < A›, hau, ha, hab, hb⟩
    · rintro ⟨-, hau, hi, hij, hj⟩
      exact ⟨i, ⟨hi, hau⟩, j, ⟨hj, hij⟩, rfl, rfl⟩
  · simp only [List.not_mem_nil, false_iff, not_and]
    intro hu
    omega

/-- Each unit's pair list has no duplicates: the outer loop visits
distinct rows, the inner loop distinct columns. -/
theorem processPairs_nodup (n A u : ℕ) : (processPairs n A u).Nodup := by
  unfold processPairs coreRows innerJs
  split
  · refine List.nodup_flatMap.2 ⟨?_, ?_⟩
    · intro i _
      exact (((List.nodup_range n).filter _).map
        (fun j j' h => by injection h))
    · refine List.Pairwise.imp ?_
        (((List.nodup_range n).filter (fun i => decide (i % A = u))))
      intro a b hab q hqa hqb
      rcases List.mem_map.1 hqa with ⟨ja, -, rfl⟩
      rcases List.mem_map.1 hqb with ⟨jb, -, h⟩
      exact hab (congrArg Prod.fst h.symm)
  · exact List.nodup_nil

/-- **C1.** For every `n` and every `activeUnitCount = A ≥ 1`, the cyclic
assignment generates every pair `(i, j)` with `i < j < n` exactly once
across all units: exactly one unit (the owner `i % A` of row `i`) has
it in its pair list, and no unit's pair list repeats an entry — so no
pair is produced by two different units, none is produced twice by one
unit, and none is omitted; each output element is written by exactly
one unit. -/
theorem cyclic_cover_exactly_once (n A i j : ℕ) (hA : 1 ≤ A) (hij : i < j)
    (hj : j < n) :
    (∃! u, (i, j) ∈ processPairs n A u) ∧
      ((i, j) ∈ processPairs n A (i % A)) ∧
      ∀ u, (processPairs n A u).Nodup := by
  have hmem : (i, j) ∈ processPairs n A (i % A) :=
    mem_processPairs.2 ⟨Nat.mod_lt i hA, rfl, lt_trans hij hj, hij, hj⟩
  refine ⟨⟨i % A, hmem, ?_⟩, hmem, processPairs_nodup n A⟩
  intro u hu
  exact (mem_processPairs.1 hu).2.1.symm

/-- Witness for `cyclic_cover_exactly_once`: `n = 7`, `A = 3`, pair
`(3, 5)` — owned exactly by unit `0 = 3 % 3`. -/
theorem cyclic_cover_exactly_once_witness :
    (∃! u, (3, 5) ∈ processPairs 7 3 u) ∧
      ((3, 5) ∈ processPairs 7 3 (3 % 3)) ∧
      ∀ u, (processPairs 7 3 u).Nodup :=
  cyclic_cover_exactly_once 7 3 3 5 (by decide) (by decide) (by decide)

/-! ## Claim C2: the condensed output index is a bijection -/

/-- The closed form `(2n - 1 - i) * i` equals twice the pair count
`rowBaseS n i`, for `i ≤ n`. -/
theorem twice_rowBaseS (n : ℕ) : ∀ i, i ≤ n → (2 * n - 1 - i) * i = 2 * rowBaseS n i := by
  intro i
  induction i with
  | zero => simp [rowBaseS]
  | succ k ih =>
    intro h
    have ihk := ih (Nat.le_of_succ_le h)
    rw [rowBaseS, Finset.sum_range_succ, ← rowBaseS]
    obtain ⟨a, rfl⟩ : ∃ a, n = a + k + 1 := ⟨n - k - 1, by omega⟩
    have e1 : 2 * (a + k + 1) - 1 - (k + 1) = 2 * a + k := by omega
    have e2 : 2 * (a + k + 1) - 1 - k = 2 * a + k + 1 := by omega
    have e3 : a + k + 1 - 1 - k = a := by omega
    rw [e1, e3]
    rw [e2] at ihk
    have expand : (2 * a + k) * (k + 1) = (2 * a + k + 1) * k + 2 * a := by ring
    rw [expand]
    omega

/-- `outIdx` decomposes as pair count below row `i` plus the offset of
`j` inside row `i`'s run. -/
theorem outIdx_eq_rowBaseS (n i j : ℕ) (hi : i ≤ n) :
    outIdx n i j = rowBaseS n i + (j - i - 1) := by
  unfold outIdx
  rw [twice_rowBaseS n i hi, Nat.mul_div_cancel_left _ (by norm_num : 0 < 2)]

/-- `rowBaseS n` is monotone in the row index. -/
theorem rowBaseS_mono (n : ℕ) {i i' : ℕ} (h : i ≤ i') :
    rowBaseS n i ≤ rowBaseS n i' :=
  Finset.sum_le_sum_of_subset (Finset.range_subset.2 h)

/-- `rowBaseS n n` is the total pair count `n * (n - 1) / 2`. -/
theorem rowBaseS_total (n : ℕ) : rowBaseS n n = n * (n - 1) / 2 := by
  unfold rowBaseS
  calc ∑ r ∈ Finset.range n, (n - 1 - r)
      = ∑ r ∈ Finset.range n, r := Finset.sum_range_reflect (fun r => r) n
    _ = n * (n - 1) / 2 := Finset.sum_range_id n

/-- The output index of every generated pair lies below the output
length. -/
theorem outIdx_lt (n i j : ℕ) (hij : i < j) (hj : j < n) :
    outIdx n i j < n * (n - 1) / 2 := by
  have hi : i ≤ n := le_of_lt (lt_trans hij hj)
  rw [outIdx_eq_rowBaseS n i j hi]
  have hstep : rowBaseS n (i + 1) = rowBaseS n i + (n - 1 - i) :=
    Finset.sum_range_succ _ i
  have h1 : rowBaseS n i + (j - i - 1) < rowBaseS n (i + 1) := by omega
  have h2 : rowBaseS n (i + 1) ≤ rowBaseS n n :=
    rowBaseS_mono n (by omega)
  rw [rowBaseS_total] at h2
  omega

/-- Distinct generated pairs get distinct output indices. -/
theorem outIdx_injOn (n i j i' j' : ℕ) (hij : i < j) (hj : j < n)
    (hij' : i' < j') (hj' : j' < n)
    (heq : outIdx n i j = outIdx n i' j') : i = i' ∧ j = j' := by
  have key : ∀ a b a' b' : ℕ, a < b → b < n → a' < b' → b' < n → a < a' →
      outIdx n a b < outIdx n a' b' := by
    intro a b a' b' hab hbn hab' hbn' haa'
    rw [outIdx_eq_rowBaseS n a b (by omega), outIdx_eq_rowBaseS n a' b' (by omega)]
    have hstep : rowBaseS n (a + 1) = rowBaseS n a + (n - 1 - a) :=
      Finset.sum_range_succ _ a
    have hmono : rowBaseS n (a + 1) ≤ rowBaseS n a' := rowBaseS_mono n (by omega)
    omega
  have hii' : i = i' := by
    rcases lt_trichotomy i i' with h | h | h
    · exact absurd heq (Nat.ne_of_lt (key i j i' j' hij hj hij' hj' h))
    · exact h
    · exact absurd heq.symm (Nat.ne_of_lt (key i' j' i j hij' hj' hij hj h))
  subst hii'
  rw [outIdx_eq_rowBaseS n i j (by omega), outIdx_eq_rowBaseS n i j' (by omega)] at heq
  exact ⟨rfl, by omega⟩

/-- Every index below the output length is the image of a generated
pair. -/
theorem outIdx_surjOn (n k : ℕ) (hk : k < n * (n - 1) / 2) :
    ∃ i j, i < j ∧ j < n ∧ outIdx n i j = k := by
  have hn : 1 ≤ n := by
    by_contra h
    interval_cases n <;> omega
  have hex : ∃ i, k < rowBaseS n (i + 1) := by
    refine ⟨n - 1, ?_⟩
    have : n - 1 + 1 = n := by omega
    rw [this, rowBaseS_total]
    exact hk
  set i0 := Nat.find hex with hi0
  have h1 : k < rowBaseS n (i0 + 1) := Nat.find_spec hex
  have h2 : rowBaseS n i0 ≤ k := by
    rcases Nat.eq_zero_or_pos i0 with h | h
    · rw [h]; simp [rowBaseS]
    · have hlt : i0 - 1 < i0 := by omega
      have := Nat.find_min hex hlt
      have heq : i0 - 1 + 1 = i0 := by omega
      rw [heq] at this
      omega
  have hi0n : i0 < n := by
    by_contra h
    push_neg at h
    have := rowBaseS_mono n h
    rw [rowBaseS_total] at this
    omega
  have hstep : rowBaseS n (i0 + 1) = rowBaseS n i0 + (n - 1 - i0) :=
    Finset.sum_range_succ _ i0
  refine ⟨i0, i0 + 1 + (k - rowBaseS n i0), by omega, by omega, ?_⟩
  rw [outIdx_eq_rowBaseS n i0 _ (by omega)]
  omega

/-- **C2.** For `n ≥ 2`, `outIdx n` is a bijection from the pair set
`{(i, j) : i < j < n}` onto `[0, n·(n-1)/2)`; for `n = 5` it takes the
ten values `0, …, 9` in the documented order; and the engine writes the
distance of pair `(i, j)` at exactly this index (`writePair` updates
slot `outIdx n i j` with `computePair` on the staged rows). -/
theorem outIdx_bijection (n : ℕ) (hn : 2 ≤ n) :
    Set.BijOn (fun q : ℕ × ℕ => outIdx n q.1 q.2)
        {q : ℕ × ℕ | q.1 < q.2 ∧ q.2 < n} (Set.Iio (n * (n - 1) / 2)) ∧
      (outIdx 5 0 1 = 0 ∧ outIdx 5 0 2 = 1 ∧ outIdx 5 0 3 = 2 ∧
        outIdx 5 0 4 = 3 ∧ outIdx 5 1 2 = 4 ∧ outIdx 5 1 3 = 5 ∧
        outIdx 5 1 4 = 6 ∧ outIdx 5 2 3 = 7 ∧ outIdx 5 2 4 = 8 ∧
        outIdx 5 3 4 = 9) ∧
      ∀ (x : ℕ → ℝ) (m tl : ℕ) (p : ℝ) (y : ℕ → ℝ) (i j : ℕ),
        writePair x n m tl p y (i, j) (outIdx n i j) =
          computePair p (CopyRow x m tl i) (CopyRow x m tl j) := by
  refine ⟨⟨?_, ?_, ?_⟩, by decide, ?_⟩
  · rintro ⟨i, j⟩ ⟨hij, hj⟩
    exact outIdx_lt n i j hij hj
  · rintro ⟨i, j⟩ ⟨hij, hj⟩ ⟨i', j'⟩ ⟨hij', hj'⟩ heq
    obtain ⟨h1, h2⟩ := outIdx_injOn n i j i' j' hij hj hij' hj' heq
    simp [h1, h2]
  · intro k hk
    obtain ⟨i, j, hij, hj, hout⟩ := outIdx_surjOn n k hk
    exact ⟨(i, j), ⟨hij, hj⟩, hout⟩
  · intro x m tl p y i j
    simp [writePair]

/-- Witness for `outIdx_bijection` at `n = 5`. -/
theorem outIdx_bijection_witness :
    Set.BijOn (fun q : ℕ × ℕ => outIdx 5 q.1 q.2)
        {q : ℕ × ℕ | q.1 < q.2 ∧ q.2 < 5} (Set.Iio (5 * (5 - 1) / 2)) ∧
      (outIdx 5 0 1 = 0 ∧ outIdx 5 0 2 = 1 ∧ outIdx 5 0 3 = 2 ∧
        outIdx 5 0 4 = 3 ∧ outIdx 5 1 2 = 4 ∧ outIdx 5 1 3 = 5 ∧
        outIdx 5 1 4 = 6 ∧ outIdx 5 2 3 = 7 ∧ outIdx 5 2 4 = 8 ∧
        outIdx 5 3 4 = 9) ∧
      ∀ (x : ℕ → ℝ) (m tl : ℕ) (p : ℝ) (y : ℕ → ℝ) (i j : ℕ),
        writePair x 5 m tl p y (i, j) (outIdx 5 i j) =
          computePair p (CopyRow x m tl i) (CopyRow x m tl j) :=
  outIdx_bijection 5 (by norm_num)

/-- **C7.** For every `n`, `m`, `p` and total available unit count, the
planner's `activeUnitCount` (`usedCoreNum`) equals the total available
unit count, except when `n` is strictly below it, in which case it is 1
— independently of `m`, `p` and the dtype. -/
theorem usedCoreNum_smallN (n m : ℕ) (pAttr : Option ℝ) (isFloat32 : Bool)
    (aicoreNum : ℕ) :
    (n < aicoreNum →
        (TilingFunc n m pAttr isFloat32 aicoreNum).usedCoreNum = 1) ∧
      (aicoreNum ≤ n →
        (TilingFunc n m pAttr isFloat32 aicoreNum).usedCoreNum = aicoreNum) := by
  constructor
  · intro h
    simp only [TilingFunc, usedCoreNum, if_pos h]
  · intro h
    simp only [TilingFunc, usedCoreNum, if_neg (not_lt.2 h)]

/-- Witness for `usedCoreNum_smallN`: `n = 3 < 8` units collapses to 1;
`n = 8 ≥ 3` units keeps all 3 — independent of `m`, `p`, dtype. -/
theorem usedCoreNum_smallN_witness :
    (TilingFunc 3 2 none true 8).usedCoreNum = 1 ∧
      (TilingFunc 8 2 (some 3) false 3).usedCoreNum = 3 :=
  ⟨(usedCoreNum_smallN 3 2 none true 8).1 (by decide),
    (usedCoreNum_smallN 8 2 (some 3) false 3).2 (by decide)⟩

/-! ## Claim C4: the generic-`p` branch computes the unrooted sum -/

/-- Every element of the staged absolute difference is nonnegative. -/
theorem absDiff_nonneg (a b : List ℝ) : ∀ t ∈ absDiff a b, 0 ≤ t := by
  unfold absDiff
  induction a generalizing b with
  | nil => intro t ht; simp at ht
  | cons u us ih =>
    intro t ht
    cases b with
    | nil => simp at ht
    | cons v vs =>
      rw [List.zipWith_cons_cons] at ht
      rcases List.mem_cons.1 ht with h | h
      · rw [h]; exact abs_nonneg _
      · exact ih vs t h

/-- **C4.** For every finite `p ∉ {1, 2}`, the kernel's result on two
staged rows is the epsilon-guarded unrooted sum
`Σ (|d| + 1e-20) ^ p` (via `exp (p · ln (|d| + 1e-20))`), with no final
`1/p` root; and every argument of `Ln` is strictly positive (the
epsilon guard), so the log is well defined even for exactly-equal
coordinates. -/
theorem generic_branch_unrooted (p : ℝ) (h1 : p ≠ 1) (h2 : p ≠ 2)
    (a b : List ℝ) :
    computePair p a b =
        ((absDiff a b).map fun t => (t + 1e-20) ^ p).sum ∧
      ∀ t ∈ absDiff a b, (0 : ℝ) < t + 1e-20 := by
  have hpos : ∀ t ∈ absDiff a b, (0 : ℝ) < t + 1e-20 := by
    intro t ht
    have := absDiff_nonneg a b t ht
    norm_num
    linarith
  refine ⟨?_, hpos⟩
  unfold computePair
  rw [if_neg h1, if_neg h2]
  refine congrArg List.sum (List.map_congr_left ?_)
  intro t ht
  rw [Real.rpow_def_of_pos (hpos t ht), mul_comm]

/-- Witness for `generic_branch_unrooted`: `p = 3` on the single-column
rows `[0]` and `[0]` (exactly-equal coordinates). -/
theorem generic_branch_unrooted_witness :
    computePair 3 [(0 : ℝ)] [0] =
        ((absDiff [(0 : ℝ)] [0]).map fun t => (t + 1e-20) ^ (3 : ℝ)).sum ∧
      ∀ t ∈ absDiff [(0 : ℝ)] [0], (0 : ℝ) < t + 1e-20 :=
  generic_branch_unrooted 3 (by norm_num) (by norm_num) [0] [0]

/-! ## Claim C3: the `p = 1` / `p = 2` branches and the end-to-end scenario -/

theorem sqrt_twentyfive : Real.sqrt 25 = 5 := by
  rw [show (25 : ℝ) = 5 ^ 2 by norm_num]
  exact Real.sqrt_sq (by norm_num)

theorem sqrt_hundred : Real.sqrt 100 = 10 := by
  rw [show (100 : ℝ) = 10 ^ 2 by norm_num]
  exact Real.sqrt_sq (by norm_num)

/-- `|a - b| = b - a` when `a ≤ b`. -/
theorem abs_sub_eval (a b : ℝ) (h : a ≤ b) : |a - b| = b - a := by
  rw [abs_sub_comm, abs_of_nonneg (sub_nonneg.2 h)]

/-- The `p = 2` branch on a staged pair of two-element rows. -/
theorem computePair_two_eval (u1 u2 v1 v2 : ℝ) :
    computePair 2 [u1, u2] [v1, v2] =
      Real.sqrt (|u1 - v1| * |u1 - v1| + |u2 - v2| * |u2 - v2|) := by
  unfold computePair absDiff
  norm_num

/-- The `p = 1` branch on a staged pair of two-element rows. -/
theorem computePair_one_eval (u1 u2 v1 v2 : ℝ) :
    computePair 1 [u1, u2] [v1, v2] = |u1 - v1| + |u2 - v2| := by
  unfold computePair absDiff
  norm_num

theorem dist_0034 : computePair 2 [(0 : ℝ), 0] [3, 4] = 5 := by
  rw [computePair_two_eval, abs_sub_eval 0 3 (by norm_num),
    abs_sub_eval 0 4 (by norm_num)]
  norm_num [sqrt_twentyfive]

theorem dist_0000 : computePair 2 [(0 : ℝ), 0] [0, 0] = 0 := by
  rw [computePair_two_eval]
  norm_num

theorem dist_0068 : computePair 2 [(0 : ℝ), 0] [6, 8] = 10 := by
  rw [computePair_two_eval, abs_sub_eval 0 6 (by norm_num),
    abs_sub_eval 0 8 (by norm_num)]
  norm_num [sqrt_hundred]

/-- `|a - b| = a - b` when `b ≤ a`. -/
theorem abs_sub_eval' (a b : ℝ) (h : b ≤ a) : |a - b| = a - b :=
  abs_of_nonneg (sub_nonneg.2 h)

theorem dist_3400 : computePair 2 [(3 : ℝ), 4] [0, 0] = 5 := by
  rw [computePair_two_eval, abs_sub_eval' 3 0 (by norm_num),
    abs_sub_eval' 4 0 (by norm_num)]
  norm_num [sqrt_twentyfive]

theorem dist_3468 : computePair 2 [(3 : ℝ), 4] [6, 8] = 5 := by
  rw [computePair_two_eval, abs_sub_eval 3 6 (by norm_num),
    abs_sub_eval 4 8 (by norm_num)]
  norm_num [sqrt_twentyfive]

/-- **C3 counterexample.** In the `n = 4` scenario, the engine's own
`p = 2` branch gives distance 5 for rows `[3,4]` and `[6,8]` (rows 1
and 3), and the output slot of pair `(1, 3)` is index 4 — so the
claimed output vector, which has 10 at index 4, is wrong. -/
theorem e2e_vector_misordered :
    computePair 2 [(3 : ℝ), 4] [6, 8] = 5 ∧ outIdx 4 1 3 = 4 ∧
      ((5 : ℝ) ≠ 10) :=
  ⟨dist_3468, by decide, by norm_num⟩

/-- Staged rows of the end-to-end scenario, with `tl = m = 2`
(padding-free staging). -/
theorem copyRow_xE :
    CopyRow xE 2 2 0 = [0, 0] ∧ CopyRow xE 2 2 1 = [3, 4] ∧
      CopyRow xE 2 2 2 = [0, 0] ∧ CopyRow xE 2 2 3 = [6, 8] := by
  refine ⟨?_, ?_, ?_, ?_⟩ <;> norm_num [CopyRow, xE, List.range_succ]

/-- The pair lists of the single-unit run on `n = 4`. -/
theorem processPairs_four :
    processPairs 4 1 0 = [(0, 1), (0, 2), (0, 3), (1, 2), (1, 3), (2, 3)] := by
  decide

/-- **C3 (amended).** The `p = 1` branch computes the Manhattan distance
of the staged rows and the `p = 2` branch their Euclidean distance; rows
`[0,0]` and `[3,4]` give 7.0 (`p = 1`) and 5.0 (`p = 2`); and the
end-to-end scenario `n = 4`, `m = 2`, `p = 2`, run with padding-free
staging (`tl = m = 2`; the planner's `tileLength = 8` would pollute the
staging buffers, see C5), yields `[5, 0, 10, 5, 5, 10]` in index-formula
order — entries 4 and 5 are 5 and 10, not 10 and 5 as claimed. -/
theorem p_one_two_and_e2e :
    (∀ a b : List ℝ,
        computePair 1 a b = (List.zipWith (fun u v => |u - v|) a b).sum ∧
          computePair 2 a b =
            Real.sqrt ((List.zipWith (fun u v => (u - v) ^ 2) a b).sum)) ∧
      computePair 1 [(0 : ℝ), 0] [3, 4] = 7 ∧
      computePair 2 [(0 : ℝ), 0] [3, 4] = 5 ∧
      engineRun xE 4 2 2 2 1 xZeros 0 = 5 ∧
      engineRun xE 4 2 2 2 1 xZeros 1 = 0 ∧
      engineRun xE 4 2 2 2 1 xZeros 2 = 10 ∧
      engineRun xE 4 2 2 2 1 xZeros 3 = 5 ∧
      engineRun xE 4 2 2 2 1 xZeros 4 = 5 ∧
      engineRun xE 4 2 2 2 1 xZeros 5 = 10 := by
  obtain ⟨hR0, hR1, hR2, hR3⟩ := copyRow_xE
  have habs : (fun u v : ℝ => |u - v| * |u - v|) = fun u v => (u - v) ^ 2 := by
    funext u v
    rw [abs_mul_abs_self, sq]
  refine ⟨?_, ?_, dist_0034, ?_, ?_, ?_, ?_, ?_, ?_⟩
  · intro a b
    constructor
    · unfold computePair absDiff
      rw [if_pos rfl]
    · unfold computePair absDiff
      rw [if_neg (by norm_num : (2 : ℝ) ≠ 1), if_pos rfl, List.map_zipWith, habs]
  · rw [computePair_one_eval, abs_sub_eval 0 3 (by norm_num),
      abs_sub_eval 0 4 (by norm_num)]
    norm_num
  all_goals
    have hrange1 : List.range 1 = [0] := rfl
    simp only [engineRun, coreRun, processPairs_four, hrange1,
      List.foldl_cons, List.foldl_nil, writePair]
    norm_num [outIdx]
    simp only [hR0, hR1, hR2, hR3]
    first
      | exact dist_0034 | exact dist_0000 | exact dist_0068
      | exact dist_3400 | exact dist_3468

/-! ## Claim C5: padding is not neutral under the reductions -/

/-- The `p = 1` branch is the plain sum of the staged absolute
differences. -/
theorem computePair_one (a b : List ℝ) :
    computePair 1 a b = (absDiff a b).sum := by
  unfold computePair
  rw [if_pos rfl]

/-- **C5 (code bug).** For `m = 1` with 32-bit elements the planner's
`tileLength` is 8, and on the in-bounds input `xPad` (`n = 9`, column
`[0,0,1,1,1,1,1,1,1]`) the pair `(0, 1)` reduces to 1 over the full
staged `tileLength` but to 0 over the first `m` true row elements: the
padding lanes hold trailing elements of later rows, not zeros, and
contribute to the reduction.  The host-side oracle `cpu_pdist` computes
0 for this pair, so the kernel's result contradicts its own test
harness. -/
theorem padding_not_neutral :
    tileLength 1 4 = 8 ∧
      computePair 1 (CopyRow xPad 1 (tileLength 1 4) 0)
          (CopyRow xPad 1 (tileLength 1 4) 1) = 1 ∧
      computePair 1 (CopyRow xPad 1 1 0) (CopyRow xPad 1 1 1) = 0 ∧
      cpuPairDist ((1 : ℝ) : EReal) xPad 1 0 1 = 0 ∧
      ((1 : ℝ) ≠ 0) := by
  have htl : tileLength 1 4 = 8 := by decide
  have h10 : |(0 : ℝ) - 1| = 1 := by
    rw [abs_sub_eval 0 1 (by norm_num)]
    norm_num
  refine ⟨htl, ?_, ?_, ?_, by norm_num⟩
  · rw [htl, computePair_one]
    norm_num [CopyRow, xPad, absDiff, List.range_succ, h10]
  · rw [computePair_one]
    norm_num [CopyRow, xPad, absDiff, List.range_succ]
  · unfold cpuPairDist
    rw [if_neg (EReal.coe_ne_top 1), EReal.toReal_coe]
    norm_num [xPad, List.range_succ, Real.rpow_one]

/-! ## Claim C8: the kernel ignores the 16-bit element type -/

/-- **C8 (code bug).** The host planner sizes FP16 elements at 2 bytes,
but the kernel accesses both tensors through `float*` (4-byte elements):
for an FP16 matrix with `m = 16`, the kernel fetches row 1 starting at
byte 64 while the row actually starts at byte 32, and stages 64 bytes
for a 32-byte row — so the engine does not read or write 16-bit
elements at all. -/
theorem fp16_reads_misaligned :
    typeSize false = 2 ∧ kernelElemBytes = 4 ∧
      typeSize false ≠ kernelElemBytes ∧
      kernelRowStartByte 16 1 = 64 ∧
      rowStartByte (typeSize false) 16 1 = 32 ∧
      kernelRowStartByte 16 1 ≠ rowStartByte (typeSize false) 16 1 ∧
      kernelRowReadBytes (tileLength 16 (typeSize false)) = 64 ∧
      16 * typeSize false = 32 := by
  decide

/-! ## Claim C9: no Chebyshev branch for `p = +inf` -/

/-- `x ^ (2 : ℝ) = x * x` for the real power. -/
theorem rpow_two_eval (x : ℝ) : x ^ (2 : ℝ) = x * x := by
  rw [show (2 : ℝ) = ((2 : ℕ) : ℝ) by norm_num, Real.rpow_natCast]
  ring

/-- `25 ^ (1/2) = 5` for the real power. -/
theorem rpow_half_25 : (25 : ℝ) ^ ((1 : ℝ) / 2) = 5 := by
  rw [show (25 : ℝ) = 5 ^ (2 : ℕ) by norm_num, ← Real.rpow_natCast 5 2,
    ← Real.rpow_mul (by norm_num)]
  norm_num

/-- **C9.** The kernel's branch on `p` has exactly the three paths
`p == 1`, `p == 2` and generic, and for `p = +inf` (unequal to every
finite float) it selects the generic log/exp path — there is no
maximum-based path and no failure path.  Only the host-side reference
implements Chebyshev: on rows `[0,0]` and `[3,4]` its `p = +inf`
fallback returns the maximum difference 4, distinct from the 5 that
the sum-based Minkowski computation gives. -/
theorem inf_takes_generic_branch :
    branchOf ⊤ = PBranch.genericB ∧
      (∀ b : PBranch, b = PBranch.oneB ∨ b = PBranch.twoB ∨
        b = PBranch.genericB) ∧
      cpuPairDist ⊤ xE 2 0 1 = 4 ∧
      cpuPairDist ((2 : ℝ) : EReal) xE 2 0 1 = 5 ∧
      ((4 : ℝ) ≠ 5) := by
  refine ⟨?_, ?_, ?_, ?_, by norm_num⟩
  · unfold branchOf
    rw [if_neg (EReal.top_ne_coe 1), if_neg (EReal.top_ne_coe 2)]
  · intro b
    cases b
    · exact Or.inl rfl
    · exact Or.inr (Or.inl rfl)
    · exact Or.inr (Or.inr rfl)
  · unfold cpuPairDist
    rw [if_pos rfl]
    have h3 : |xE (0 * 2 + 0) - xE (1 * 2 + 0)| = 3 := by
      norm_num [xE, abs_sub_eval 0 3 (by norm_num : (0:ℝ) ≤ 3)]
    have h4 : |xE (0 * 2 + 1) - xE (1 * 2 + 1)| = 4 := by
      norm_num [xE, abs_sub_eval 0 4 (by norm_num : (0:ℝ) ≤ 4)]
    rw [show List.range 2 = [0, 1] from rfl]
    simp only [List.map_cons, List.map_nil, List.foldl_cons, List.foldl_nil]
    rw [h3, h4]
    rw [max_eq_right (by norm_num : (0:ℝ) ≤ 3), max_eq_right (by norm_num : (3:ℝ) ≤ 4)]
  · unfold cpuPairDist
    rw [if_neg (EReal.coe_ne_top 2), EReal.toReal_coe]
    have h3 : |xE (0 * 2 + 0) - xE (1 * 2 + 0)| = 3 := by
      norm_num [xE, abs_sub_eval 0 3 (by norm_num : (0:ℝ) ≤ 3)]
    have h4 : |xE (0 * 2 + 1) - xE (1 * 2 + 1)| = 4 := by
      norm_num [xE, abs_sub_eval 0 4 (by norm_num : (0:ℝ) ≤ 4)]
    rw [show List.range 2 = [0, 1] from rfl]
    simp only [List.map_cons, List.map_nil, List.sum_cons, List.sum_nil]
    rw [h3, h4, rpow_two_eval, rpow_two_eval]
    norm_num [rpow_half_25]

/-! ## Claim C10: the row fetch overruns the input for unaligned `m` -/

/-- **C10 (code bug).** For `n = 2`, `m = 5`, 32-bit elements, the
planner's `tileLength` is 8, so the fetch of the last row reads the
flat element range `[5, 13)` while the input has only `n·m = 10`
elements.  Concretely: two memories that agree on every in-bounds index
of the 2×5 matrix give different staged buffers for row 1, i.e. the
fetch reads out of bounds. -/
theorem lastRow_fetch_oob :
    tileLength 5 4 = 8 ∧
      1 * 5 + tileLength 5 4 = 13 ∧ ¬(1 * 5 + tileLength 5 4 ≤ 2 * 5) ∧
      (∀ k, k < 2 * 5 → xZeros k = xBeyond k) ∧
      CopyRow xZeros 5 (tileLength 5 4) 1 ≠ CopyRow xBeyond 5 (tileLength 5 4) 1 := by
  refine ⟨by decide, by decide, by decide, ?_, ?_⟩
  · intro k hk
    simp only [xZeros, xBeyond]
    rw [if_pos (by omega : k < 10)]
  · have htl : tileLength 5 4 = 8 := by decide
    rw [htl]
    intro h
    have h10 : (CopyRow xZeros 5 8 1) = List.replicate 8 0 := by
      norm_num [CopyRow, xZeros, List.range_succ, List.replicate]
    have h11 : (CopyRow xBeyond 5 8 1) = [0, 0, 0, 0, 0, 1, 1, 1] := by
      norm_num [CopyRow, xBeyond, List.range_succ]
    rw [h10, h11] at h
    have := congrArg (fun l : List ℝ => l.getD 5 0) h
    norm_num [List.replicate, List.getD] at this

end PdistSpec
